import Mathlib

/-!
# Verification of the Obsidian agent-skill control layer

A shallow embedding of the two Python modules of the repository:

* `scripts/obsidian_cli.py` — the destructive-operation safety gate and the
  output-normalization logic wrapped around the external CLI invocation;
* `scripts/vault_registry.py` — the persisted vault registry (load, add,
  remove, set-active, set-workdir) and the discovery / merge algorithm.

Python values appearing in JSON documents are modelled by `PyVal`; Python
dictionaries are modelled as association lists whose operations mirror the
`dict` semantics used by the source (first-occurrence lookup, in-place
replacement on assignment).  Filesystem facts queried by the commands
(existence of directories, the vault marker) are passed in as booleans, and
the subprocess of `run_obsidian` is modelled by its observable outputs
(return code, stdout, stderr).
-/

set_option autoImplicit false

universe u

/-- A Python/JSON value as produced by `json.loads`.  Floats are kept as
their source lexeme (no claim inspects a float's numeric value beyond
truthiness); the special IEEE constants accepted by Python's decoder are
stored as the lexemes `NaN`, `Infinity`, `-Infinity`. -/
inductive PyVal where
  | none : PyVal
  | bool (b : Bool) : PyVal
  | int (n : Int) : PyVal
  | float (lit : String) : PyVal
  | str (s : String) : PyVal
  | list (xs : List PyVal) : PyVal
  | dict (kvs : List (String × PyVal)) : PyVal

/-- `d.get(k)` on an association list: first binding wins, as in a Python
dict (which cannot hold duplicate keys). -/
def aGet {α : Type u} (kvs : List (String × α)) (k : String) : Option α :=
  match kvs with
  | [] => Option.none
  | (k', v) :: rest => if k' = k then Option.some v else aGet rest k

/-- `k in d`. -/
def aHas {α : Type u} (kvs : List (String × α)) (k : String) : Bool :=
  (aGet kvs k).isSome

/-- `d[k] = v`: replace the existing binding in place, else append. -/
def aSet {α : Type u} (kvs : List (String × α)) (k : String) (v : α) :
    List (String × α) :=
  match kvs with
  | [] => [(k, v)]
  | (k', v') :: rest =>
      if k' = k then (k, v) :: rest else (k', v') :: aSet rest k v

/-- `d.pop(k)` restricted to its effect on the mapping. -/
def aErase {α : Type u} (kvs : List (String × α)) (k : String) :
    List (String × α) :=
  kvs.filter (fun kv => kv.1 ≠ k)

/-- `d.setdefault(k, v)`. -/
def aSetDefault {α : Type u} (kvs : List (String × α)) (k : String) (v : α) :
    List (String × α) :=
  if aHas kvs k then kvs else kvs ++ [(k, v)]

/-- `d.get(k)` where Python would yield `None` for a missing key. -/
def dGetD (kvs : List (String × PyVal)) (k : String) : PyVal :=
  (aGet kvs k).getD PyVal.none

/-! ## Character and string helpers

The Python string primitives used by the source (`str.strip`,
`str.replace("\\", "/")`, `str.split("/")`, `pathlib` path rendering) are
modelled over `List Char` so that the proofs can proceed by structural
induction. -/

/-- The whitespace characters stripped by Python's `str.strip()` (ASCII
range; the source never feeds exotic Unicode whitespace into `strip`). -/
def isPyWs (c : Char) : Bool :=
  c = ' ' ∨ c = '\t' ∨ c = '\n' ∨ c = '\r' ∨ c = '\x0b' ∨ c = '\x0c'

/-- Drop matching characters from both ends of a string. -/
def stripWhile (p : Char → Bool) (s : String) : String :=
  String.mk (((s.data.dropWhile p).reverse.dropWhile p).reverse)

/-- Python `str.strip()`. -/
def pyStrip (s : String) : String := stripWhile isPyWs s

/-- Python `str.lstrip()`. -/
def pyLStrip (s : String) : String := String.mk (s.data.dropWhile isPyWs)

/-- Python `value.strip("/")`. -/
def stripSlashes (s : String) : String := stripWhile (fun c => c = '/') s

/-- Python `value.replace("\\", "/")` (single-character replacement). -/
def replaceBackslashes (s : String) : String :=
  String.mk (s.data.map (fun c => if c = '\\' then '/' else c))

/-- `s.startswith(pre)`, computed structurally over the character lists
(so that concrete instances reduce inside the kernel). -/
def strStartsWith (s pre : String) : Bool := pre.data.isPrefixOf s.data

/-- `s.endswith(suf)`, computed structurally over the character lists. -/
def strEndsWith (s suf : String) : Bool :=
  suf.data.reverse.isPrefixOf s.data.reverse

/-- Python `s.split(sep)` for a single-character separator: splits at every
occurrence, keeping empty fields. -/
def splitOnChar (sep : Char) : List Char → List (List Char)
  | [] => [[]]
  | c :: cs =>
      match splitOnChar sep cs with
      | [] => [[]]
      | g :: gs => if c = sep then [] :: g :: gs else (c :: g) :: gs

/-- The `/`-separated fields of a string, as strings. -/
def slashFields (s : String) : List String :=
  (splitOnChar '/' s.data).map String.mk

/-- `PurePosixPath(p).name`: the final path component, with empty and `.`
parts dropped (pathlib removes them when parsing). -/
def pathName (s : String) : String :=
  ((slashFields s).filter (fun p => p ≠ "" ∧ p ≠ ".")).getLastD ""

/-- `str(PurePosixPath(p))`: empty and `.` components are dropped, a root
(`/`, or the POSIX-special `//`) is preserved, and the empty path renders
as `.`. -/
def posixPathStr (p : String) : String :=
  let root :=
    if strStartsWith p "//" ∧ ¬ strStartsWith p "///" then "//"
    else if strStartsWith p "/" then "/"
    else ""
  let parts := (slashFields p).filter (fun q => q ≠ "" ∧ q ≠ ".")
  if parts = [] then (if root = "" then "." else root)
  else root ++ String.intercalate "/" parts

/-- `str(Path(p).expanduser())`: a leading `~` component is replaced by the
home directory.  (`~user` forms are left unexpanded; the source would raise
out of `discover_vaults` for those, and no claim concerns them.) -/
def pathExpandUser (home : String) (p : String) : String :=
  let n := posixPathStr p
  if n = "~" then posixPathStr home
  else if strStartsWith n "~/" then
    posixPathStr (home ++ "/" ++ String.mk (n.data.drop 1))
  else n

/-- Python truthiness for the values the source tests with `if x:` /
`x or y`.  A float literal is falsy exactly when its mantissa digits are
all zero (the special constants are truthy). -/
def pyTruthy : PyVal → Bool
  | PyVal.none => false
  | PyVal.bool b => b
  | PyVal.int n => n ≠ 0
  | PyVal.float lit =>
      if lit = "NaN" ∨ lit = "Infinity" ∨ lit = "-Infinity" then true
      else
        (lit.data.takeWhile (fun c => c ≠ 'e' ∧ c ≠ 'E')).any
          (fun c => c.isDigit ∧ c ≠ '0')
  | PyVal.str s => s ≠ ""
  | PyVal.list xs => ¬ xs.isEmpty
  | PyVal.dict kvs => ¬ kvs.isEmpty

/-- Python `a or b`. -/
def pyOr (a b : PyVal) : PyVal := if pyTruthy a then a else b

/-- Python `str(x)` for the positions where the source lets a value flow
into a string slot.  Container renderings are abbreviated and float
lexemes are kept verbatim: both are observable only for pathological
documents that no claim concerns (the fields involved are strings in every
document shape the specification describes). -/
def pyToStr : PyVal → String
  | PyVal.none => "None"
  | PyVal.bool true => "True"
  | PyVal.bool false => "False"
  | PyVal.int n => toString n
  | PyVal.float lit => lit
  | PyVal.str s => s
  | PyVal.list _ => "[...]"
  | PyVal.dict _ => "{...}"

/-! ## A model of `json.loads`

A recursive-descent decoder for the JSON dialect accepted by Python's
`json.loads` in its default configuration: RFC 8259 grammar plus the
constants `NaN`, `Infinity` and `-Infinity`.  A number without fraction or
exponent decodes to `PyVal.int`, every other number to `PyVal.float`
(keeping its lexeme).  The decoder is fuelled by the input length; each
recursive step consumes at least one character, so the fuel never runs out
on inputs the grammar accepts. -/

/-- The insignificant whitespace of the JSON grammar. -/
def isJsonWs (c : Char) : Bool :=
  c = ' ' ∨ c = '\t' ∨ c = '\n' ∨ c = '\r'

/-- Skip insignificant whitespace. -/
def skipWs : List Char → List Char
  | [] => []
  | c :: cs => if isJsonWs c then skipWs cs else c :: cs

/-- Match a literal token, returning the remainder. -/
def matchLit : List Char → List Char → Option (List Char)
  | [], cs => Option.some cs
  | _ :: _, [] => Option.none
  | l :: ls, c :: cs => if c = l then matchLit ls cs else Option.none

/-- Value of one hexadecimal digit. -/
def hexVal (c : Char) : Option Nat :=
  if '0' ≤ c ∧ c ≤ '9' then Option.some (c.toNat - '0'.toNat)
  else if 'a' ≤ c ∧ c ≤ 'f' then Option.some (c.toNat - 'a'.toNat + 10)
  else if 'A' ≤ c ∧ c ≤ 'F' then Option.some (c.toNat - 'A'.toNat + 10)
  else Option.none

/-- Value of a four-digit hexadecimal escape. -/
def hex4 (a b c d : Char) : Option Nat := do
  let va ← hexVal a
  let vb ← hexVal b
  let vc ← hexVal c
  let vd ← hexVal d
  Option.some (((va * 16 + vb) * 16 + vc) * 16 + vd)

/-- Scan the body of a JSON string after the opening quote into a list of
code units (one per character or escape), returning the remainder after
the closing quote.  Unescaped control characters are rejected
(`json.loads` strict mode). -/
def scanStringUnits : List Char → Option (List Nat × List Char)
  | [] => Option.none
  | '"' :: cs => Option.some ([], cs)
  | '\\' :: esc =>
      match esc with
      | [] => Option.none
      | e :: cs =>
          match e with
          | '"' => (fun r => (('"' : Char).toNat :: r.1, r.2)) <$> scanStringUnits cs
          | '\\' => (fun r => (('\\' : Char).toNat :: r.1, r.2)) <$> scanStringUnits cs
          | '/' => (fun r => (('/' : Char).toNat :: r.1, r.2)) <$> scanStringUnits cs
          | 'b' => (fun r => ((0x08 : Nat) :: r.1, r.2)) <$> scanStringUnits cs
          | 'f' => (fun r => ((0x0c : Nat) :: r.1, r.2)) <$> scanStringUnits cs
          | 'n' => (fun r => (('\n' : Char).toNat :: r.1, r.2)) <$> scanStringUnits cs
          | 'r' => (fun r => (('\r' : Char).toNat :: r.1, r.2)) <$> scanStringUnits cs
          | 't' => (fun r => (('\t' : Char).toNat :: r.1, r.2)) <$> scanStringUnits cs
          | 'u' =>
              match cs with
              | a :: b :: c :: d :: rest =>
                  match hex4 a b c d with
                  | Option.none => Option.none
                  | Option.some v =>
                      (fun r => (v :: r.1, r.2)) <$> scanStringUnits rest
              | _ => Option.none
          | _ => Option.none
  | c :: cs =>
      if c.toNat < 0x20 then Option.none
      else (fun r => (c.toNat :: r.1, r.2)) <$> scanStringUnits cs

/-- Combine UTF-16 surrogate pairs produced by `\uXXXX` escapes; a lone
surrogate maps through `Char.ofNat`'s fallback (Python would keep it as a
lone surrogate — representable there, not here, and exercised by no
claim). -/
def combineSurrogates : List Nat → List Char
  | [] => []
  | u :: rest =>
      if 0xD800 ≤ u ∧ u < 0xDC00 then
        match rest with
        | lo :: rest2 =>
            if 0xDC00 ≤ lo ∧ lo < 0xE000 then
              Char.ofNat (0x10000 + (u - 0xD800) * 0x400 + (lo - 0xDC00)) ::
                combineSurrogates rest2
            else Char.ofNat u :: combineSurrogates (lo :: rest2)
        | [] => [Char.ofNat u]
      else Char.ofNat u :: combineSurrogates rest
termination_by l => l.length
decreasing_by all_goals simp [List.length_cons]; try omega

/-- Scan the body of a JSON string after the opening quote, returning the
decoded characters and the remainder after the closing quote. -/
def scanString (cs : List Char) : Option (List Char × List Char) :=
  (fun r => (combineSurrogates r.1, r.2)) <$> scanStringUnits cs

/-- One or more decimal digits. -/
def scanDigits : List Char → Option (List Char × List Char)
  | [] => Option.none
  | c :: cs =>
      if c.isDigit then
        match cs with
        | [] => Option.some ([c], [])
        | c2 :: _ =>
            if c2.isDigit then
              (fun r => (c :: r.1, r.2)) <$> scanDigits cs
            else Option.some ([c], cs)
      else Option.none

/-- The integer part of a JSON number: `0`, or a nonzero digit followed by
digits (leading zeros are rejected, as by `json.loads`). -/
def scanIntPart : List Char → Option (List Char × List Char)
  | [] => Option.none
  | '0' :: cs => Option.some (['0'], cs)
  | c :: cs =>
      if c.isDigit then
        match scanDigits (c :: cs) with
        | Option.some r => Option.some r
        | Option.none => Option.none
      else Option.none

/-- The optional fraction part (`.` and digits); returns the consumed
lexeme. -/
def scanFrac : List Char → Option (List Char × List Char)
  | '.' :: cs =>
      match scanDigits cs with
      | Option.some (ds, rest) => Option.some ('.' :: ds, rest)
      | Option.none => Option.none
  | _ => Option.none

/-- The optional exponent part; returns the consumed lexeme. -/
def scanExp : List Char → Option (List Char × List Char)
  | e :: cs =>
      if e = 'e' ∨ e = 'E' then
        match cs with
        | '+' :: cs2 =>
            match scanDigits cs2 with
            | Option.some (ds, rest) => Option.some (e :: '+' :: ds, rest)
            | Option.none => Option.none
        | '-' :: cs2 =>
            match scanDigits cs2 with
            | Option.some (ds, rest) => Option.some (e :: '-' :: ds, rest)
            | Option.none => Option.none
        | _ =>
            match scanDigits cs with
            | Option.some (ds, rest) => Option.some (e :: ds, rest)
            | Option.none => Option.none
      else Option.none
  | [] => Option.none

/-- Digits to a natural number. -/
def digitsToNat (ds : List Char) : Nat :=
  ds.foldl (fun n c => n * 10 + (c.toNat - '0'.toNat)) 0

/-- Parse a JSON number (after an optional leading `-` has been noted). -/
def scanNumber (neg : Bool) (cs : List Char) : Option (PyVal × List Char) :=
  match scanIntPart cs with
  | Option.none => Option.none
  | Option.some (ip, rest1) =>
      let fracPart := scanFrac rest1
      let rest2 := match fracPart with
        | Option.some (_, r) => r
        | Option.none => rest1
      let expPart := scanExp rest2
      let rest3 := match expPart with
        | Option.some (_, r) => r
        | Option.none => rest2
      match fracPart, expPart with
      | Option.none, Option.none =>
          let n : Int := Int.ofNat (digitsToNat ip)
          Option.some (PyVal.int (if neg then -n else n), rest1)
      | _, _ =>
          let lex := (if neg then ['-'] else []) ++ ip ++
            (match fracPart with
              | Option.some (l, _) => l
              | Option.none => []) ++
            (match expPart with
              | Option.some (l, _) => l
              | Option.none => [])
          Option.some (PyVal.float (String.mk lex), rest3)

mutual

/-- Parse one JSON value, skipping leading whitespace. -/
def parseValue : Nat → List Char → Option (PyVal × List Char)
  | 0, _ => Option.none
  | Nat.succ fuel, cs =>
      match skipWs cs with
      | [] => Option.none
      | '{' :: rest => parseObjTail fuel true rest
      | '[' :: rest => parseArrTail fuel true rest
      | '"' :: rest =>
          match scanString rest with
          | Option.some (content, rest2) =>
              Option.some (PyVal.str (String.mk content), rest2)
          | Option.none => Option.none
      | 't' :: rest =>
          match matchLit ['r', 'u', 'e'] rest with
          | Option.some rest2 => Option.some (PyVal.bool true, rest2)
          | Option.none => Option.none
      | 'f' :: rest =>
          match matchLit ['a', 'l', 's', 'e'] rest with
          | Option.some rest2 => Option.some (PyVal.bool false, rest2)
          | Option.none => Option.none
      | 'n' :: rest =>
          match matchLit ['u', 'l', 'l'] rest with
          | Option.some rest2 => Option.some (PyVal.none, rest2)
          | Option.none => Option.none
      | 'N' :: rest =>
          match matchLit ['a', 'N'] rest with
          | Option.some rest2 => Option.some (PyVal.float "NaN", rest2)
          | Option.none => Option.none
      | 'I' :: rest =>
          match matchLit ['n', 'f', 'i', 'n', 'i', 't', 'y'] rest with
          | Option.some rest2 => Option.some (PyVal.float "Infinity", rest2)
          | Option.none => Option.none
      | '-' :: 'I' :: rest =>
          match matchLit ['n', 'f', 'i', 'n', 'i', 't', 'y'] rest with
          | Option.some rest2 => Option.some (PyVal.float "-Infinity", rest2)
          | Option.none => Option.none
      | '-' :: rest => scanNumber true rest
      | c :: rest =>
          if c.isDigit then scanNumber false (c :: rest)
          else Option.none

/-- Parse the members of an object after `{` (when `first` is true) or
after a comma. -/
def parseObjTail : Nat → Bool → List Char →
    Option (PyVal × List Char)
  | 0, _, _ => Option.none
  | Nat.succ fuel, first, cs =>
      match skipWs cs with
      | '}' :: rest =>
          if first then Option.some (PyVal.dict [], rest) else Option.none
      | '"' :: rest =>
          match scanString rest with
          | Option.none => Option.none
          | Option.some (key, rest2) =>
              match skipWs rest2 with
              | ':' :: rest3 =>
                  match parseValue fuel rest3 with
                  | Option.none => Option.none
                  | Option.some (v, rest4) =>
                      match skipWs rest4 with
                      | ',' :: rest5 =>
                          match parseObjTail fuel false rest5 with
                          | Option.some (PyVal.dict kvs, rest6) =>
                              Option.some
                                (PyVal.dict
                                  (match aGet kvs (String.mk key) with
                                   | Option.some w =>
                                       (String.mk key, w) ::
                                         aErase kvs (String.mk key)
                                   | Option.none =>
                                       (String.mk key, v) :: kvs),
                                  rest6)
                          | _ => Option.none
                      | '}' :: rest5 =>
                          Option.some
                            (PyVal.dict [(String.mk key, v)], rest5)
                      | _ => Option.none
              | _ => Option.none
      | _ => Option.none

/-- Parse the elements of an array after `[` (when `first` is true) or
after a comma. -/
def parseArrTail : Nat → Bool → List Char →
    Option (PyVal × List Char)
  | 0, _, _ => Option.none
  | Nat.succ fuel, first, cs =>
      match skipWs cs with
      | ']' :: rest =>
          if first then Option.some (PyVal.list [], rest) else Option.none
      | _ =>
          match parseValue fuel cs with
          | Option.none => Option.none
          | Option.some (v, rest2) =>
              match skipWs rest2 with
              | ',' :: rest3 =>
                  match parseArrTail fuel false rest3 with
                  | Option.some (PyVal.list xs, rest4) =>
                      Option.some (PyVal.list (v :: xs), rest4)
                  | _ => Option.none
              | ']' :: rest3 => Option.some (PyVal.list [v], rest3)
              | _ => Option.none

end

/-- `json.loads`: decode one JSON document; trailing non-whitespace input
is rejected. -/
def jsonLoads (s : String) : Option PyVal :=
  match parseValue (s.length + 2) s.data with
  | Option.some (v, rest) =>
      match skipWs rest with
      | [] => Option.some v
      | _ :: _ => Option.none
  | Option.none => Option.none

/-! ## `scripts/obsidian_cli.py` — gate and output normalization -/

/-- `_is_destructive` (obsidian_cli.py lines 42–60): classify a command
vector, returning the refusal reason tag, if any.  Python's
`set(command[1:])` is queried only for membership, so plain list
membership is an exact model. -/
def is_destructive (command : List String) (force_delete : Bool) :
    Option String :=
  match command with
  | [] => Option.none
  | primary :: flags =>
      if primary = "delete" ∧ "permanent" ∈ flags ∧ ¬ force_delete then
        Option.some "delete-permanent"
      else if primary = "delete" ∧ ¬ force_delete then
        Option.some "delete"
      else if primary = "plugin:uninstall" ∧ ¬ force_delete then
        Option.some "plugin-uninstall"
      else if primary = "publish:remove" ∧ ¬ force_delete then
        Option.some "publish-remove"
      else if primary = "workspace:delete" ∧ ¬ force_delete then
        Option.some "workspace-delete"
      else if strEndsWith primary ":delete" ∧ primary ≠ "task:delete" ∧
          ¬ force_delete then
        Option.some ("command-" ++ primary)
      else Option.none

/-- `_command_needs_vault` (obsidian_cli.py lines 161–170). -/
def command_needs_vault (command : List String) : Bool :=
  match command with
  | [] => false
  | primary :: _ =>
      ¬ (primary = "help" ∨ primary = "version" ∨ primary = "reload" ∨
        primary = "restart" ∨ primary = "vault" ∨ primary = "vaults" ∨
        primary = "vault:open")

/-- The control-flow of `run_obsidian` (obsidian_cli.py lines 173–241) up
to the point where the subprocess would start.  Binary resolution is an
environment fact and enters as the boolean `binary_resolves`. -/
inductive GateOutcome where
  | emptyCommand : GateOutcome
  | binaryNotFound : GateOutcome
  | refused (reason : String) (command_list : List String) (vault : String) :
      GateOutcome
  | exec (command_list : List String) (vault : String) : GateOutcome
deriving DecidableEq

/-- The vault-token injection step of `run_obsidian` (lines 212–217):
returns the possibly augmented command list and the recorded vault. -/
def inject_vault (command_list : List String) (vault : String) :
    List String × String :=
  if command_needs_vault command_list then
    if vault ≠ "" then
      if ¬ command_list.any (fun part => strStartsWith part "vault=") then
        (("vault=" ++ vault) :: command_list, vault)
      else (command_list, vault)
    else if command_list.any (fun part => strStartsWith part "vault=") then
      (command_list, "")
    else (command_list, vault)
  else (command_list, vault)

/-- `run_obsidian` up to subprocess invocation: the empty-command check,
binary resolution, vault-token injection and the destructive-operation
gate, in source order. -/
def run_obsidian_gate (command : List String) (vault : String)
    (force_delete : Bool) (binary_resolves : Bool) : GateOutcome :=
  if command.isEmpty then GateOutcome.emptyCommand
  else if ¬ binary_resolves then GateOutcome.binaryNotFound
  else
    let cv := inject_vault command vault
    match is_destructive cv.1 force_delete with
    | Option.some reason => GateOutcome.refused reason cv.1 cv.2
    | Option.none => GateOutcome.exec cv.1 cv.2

/-- `_is_json_text` (obsidian_cli.py lines 63–64): non-empty and the first
character — of the raw text, not of a trimmed copy — is `{` or `[`. -/
def is_json_text (text : String) : Bool :=
  match text.data with
  | [] => false
  | c :: _ => c = '{' ∨ c = '['

/-- `_safe_parse_json` (obsidian_cli.py lines 67–73). -/
def safe_parse_json (text : String) : Option PyVal :=
  if is_json_text text then jsonLoads text else Option.none

/-- The result envelope built by `run_obsidian` after the subprocess
completed (obsidian_cli.py lines 243–261).  The timestamp and echoed
`command`/`binary`/`vault` fields carry no logic and are omitted. -/
structure Envelope where
  ok : Bool
  exit_code : Int
  stdout : String
  stderr : String
  parsed : Option PyVal
  raw : String
  output_stderr_only : Option Bool

/-- Output normalization of `run_obsidian` (lines 243–261): given the
subprocess observables, build the envelope. -/
def normalize_output (returncode : Int) (stdout stderr : String)
    (parse_output : Bool) : Envelope :=
  let parsed := if parse_output then safe_parse_json stdout else Option.none
  { ok := returncode = 0
    exit_code := returncode
    stdout := stdout
    stderr := stderr
    parsed := parsed
    raw := pyStrip stdout
    output_stderr_only :=
      if parse_output ∧ parsed.isNone ∧ pyStrip stdout = "" then
        Option.some (pyStrip stderr ≠ "")
      else Option.none }

/-! ## `scripts/vault_registry.py` — normalization, load, discovery -/

/-- `normalize_workdir` (vault_registry.py lines 19–29); the raised
`ValueError` is modelled as `Except.error`. -/
def normalize_workdir (raw : String) : Except String String :=
  let value := pyStrip raw
  if value = "" ∨ value = "." ∨ value = "./" then Except.ok ""
  else
    let value2 := stripSlashes (replaceBackslashes value)
    let parts := (slashFields value2).filter (fun p => p ≠ "" ∧ p ≠ ".")
    if parts.isEmpty then Except.ok ""
    else if parts.any (fun part => part = "..") then
      Except.error "workdir must not contain '..'"
    else Except.ok (String.intercalate "/" parts)

/-- The possible outcomes of reading the registry file, as distinguished
by `load_registry` (vault_registry.py lines 86–102). -/
inductive FileRead where
  | absent : FileRead
  | ioError : FileRead
  | content (text : String) : FileRead

/-- The default document `load_registry` falls back to. -/
def defaultRegistryDoc : PyVal :=
  PyVal.dict
    [("schema_version", PyVal.int 1), ("vaults", PyVal.dict []),
      ("active", PyVal.str "")]

/-- Line 98–99 of `load_registry`: if the `vaults` value is not a dict,
overwrite it with the empty dict. -/
def coerceVaultsField (kvs : List (String × PyVal)) : List (String × PyVal) :=
  match aGet kvs "vaults" with
  | Option.some (PyVal.dict _) => kvs
  | _ => aSet kvs "vaults" (PyVal.dict [])

/-- Line 100–101 of `load_registry`: if the `active` value is not a
string, overwrite it with the empty string. -/
def coerceActiveField (kvs : List (String × PyVal)) : List (String × PyVal) :=
  match aGet kvs "active" with
  | Option.some (PyVal.str _) => kvs
  | _ => aSet kvs "active" (PyVal.str "")

/-- The coercion step of `load_registry` (lines 93–102): `setdefault` the
three fields, then force `vaults` to a dict and `active` to a string. -/
def coerce_registry_doc (data : PyVal) : PyVal :=
  match data with
  | PyVal.dict kvs =>
      PyVal.dict
        (coerceActiveField
          (coerceVaultsField
            (aSetDefault
              (aSetDefault (aSetDefault kvs "schema_version" (PyVal.int 1))
                "vaults" (PyVal.dict []))
              "active" (PyVal.str ""))))
  | _ => defaultRegistryDoc

/-- `load_registry` (vault_registry.py lines 86–102). -/
def load_registry (file : FileRead) : PyVal :=
  match file with
  | FileRead.absent => defaultRegistryDoc
  | FileRead.ioError => defaultRegistryDoc
  | FileRead.content text =>
      match jsonLoads text with
      | Option.none => defaultRegistryDoc
      | Option.some data => coerce_registry_doc data

/-- Recognizer used to state well-formedness of the loaded registry. -/
def isDictVal : PyVal → Bool
  | PyVal.dict _ => true
  | _ => false

/-- Recognizer used to state well-formedness of the loaded registry. -/
def isStrVal : PyVal → Bool
  | PyVal.str _ => true
  | _ => false

/-- Key lookup on a `PyVal` that is expected to be a dict. -/
def pvGet (v : PyVal) (k : String) : Option PyVal :=
  match v with
  | PyVal.dict kvs => aGet kvs k
  | _ => Option.none

/-- One candidate object of a discovery payload, as consumed by the loop
bodies of `extract_vault_entries` (vault_registry.py lines 150–170): an
entry is produced when the object is a dict whose `path` is truthy; the
name comes from a truthy `name` or `label` field, else from
`Path(path).name`.  The source would pass a truthy non-string `path`
object to `Path(...)` and crash; the model renders it via `pyToStr`
(observable for no claim — every shape the specification accepts carries
string paths). -/
def entry_of_item (item : PyVal) : Option (String × String) :=
  match item with
  | PyVal.dict kvs =>
      let path := dGetD kvs "path"
      if pyTruthy path then
        let ps := pyToStr path
        let nameVal := pyOr (dGetD kvs "name") (dGetD kvs "label")
        Option.some
          (if pyTruthy nameVal then pyToStr nameVal else pathName ps, ps)
      else Option.none
  | _ => Option.none

/-- `extract_vault_entries` (vault_registry.py lines 143–171), the
tolerant multi-shape extractor, yielding `(name, path)` pairs in source
order. -/
def extract_vault_entries (data : PyVal) : List (String × String) :=
  match data with
  | PyVal.dict kvs =>
      match dGetD kvs "vaults" with
      | PyVal.dict m => (m.map Prod.snd).filterMap entry_of_item
      | PyVal.list xs => xs.filterMap entry_of_item
      | PyVal.none =>
          let values := kvs.map Prod.snd
          if ¬ values.isEmpty ∧ values.all (fun v =>
              match v with
              | PyVal.dict m => aHas m "path"
              | _ => false) then
            values.filterMap entry_of_item
          else []
      | _ => []
  | PyVal.list xs => xs.filterMap entry_of_item
  | _ => []

/-- A discovered vault entry (vault_registry.py lines 188–192). -/
structure DiscEntry where
  name : String
  path : String
  source : String
deriving DecidableEq

/-- What `discover_vaults` observes about one candidate configuration
file: missing, unreadable / invalid JSON (both caught and skipped), or a
parsed document. -/
inductive FileState where
  | absent : FileState
  | unreadable : FileState
  | badJson : FileState
  | doc (d : PyVal) : FileState

/-- The inner loop of `discover_vaults` (lines 183–192) over the entries
extracted from one file: resolve each path with `expanduser`, skip paths
already seen, and record the originating file as `source`. -/
def discover_loop (home src : String) (es : List (String × String))
    (seen : List String) (acc : List DiscEntry) :
    List DiscEntry × List String :=
  match es with
  | [] => (acc, seen)
  | (n, p) :: rest =>
      let resolved := pathExpandUser home p
      if resolved ∈ seen then discover_loop home src rest seen acc
      else
        discover_loop home src rest (resolved :: seen)
          (acc ++ [⟨n, resolved, src⟩])

/-- The outer loop of `discover_vaults` (lines 176–192) over the candidate
files; `seen` persists across files. -/
def discover_files (home : String) (files : List (String × FileState))
    (seen : List String) (acc : List DiscEntry) : List DiscEntry :=
  match files with
  | [] => acc
  | (fname, st) :: rest =>
      match st with
      | FileState.doc d =>
          let r := discover_loop home fname (extract_vault_entries d) seen acc
          discover_files home rest r.2 r.1
      | _ => discover_files home rest seen acc

/-- `discover_vaults` (vault_registry.py lines 173–193), over an abstract
candidate-file list (the platform-dependent `candidate_config_files`
output together with each file's state). -/
def discover_vaults (home : String) (files : List (String × FileState)) :
    List DiscEntry :=
  discover_files home files [] []

/-! ## `scripts/vault_registry.py` — registry state and CRUD commands

The registry documents written by this tool always have the §3 record
shape (`save_registry` only ever persists what the commands below build),
so the command-level claims are stated over a typed registry state.  The
filesystem facts each command queries (`is_vault_root`, existence and
directory-ness of the resolved workdir) enter as booleans. -/

/-- One vault record: `{path, workdir, source, updated_at}`. -/
structure VaultRecord where
  path : String
  workdir : String
  source : String
  updated_at : String
deriving DecidableEq

/-- The registry document: `{schema_version, vaults, active}`. -/
structure Registry where
  schema_version : Int
  vaults : List (String × VaultRecord)
  active : String
deriving DecidableEq

/-- The filesystem answers that `cmd_add` / `cmd_set_workdir` query. -/
structure FsFacts where
  is_vault_root : Bool
  workdir_exists : Bool
  workdir_is_dir : Bool
deriving DecidableEq

/-- The arguments of `cmd_add` that reach registry logic.  `path` stands
for the already resolved `Path(args.path).expanduser().resolve()`. -/
structure AddArgs where
  name : String
  path : String
  workdir : String
  source : String
  force : Bool
  allow_missing : Bool
  allow_missing_workdir : Bool
  set_active : Bool
deriving DecidableEq

/-- `cmd_add` (vault_registry.py lines 222–265): the checks in source
order, then the record write; `Except.error` models the early `return 1`
paths on which the registry is not saved. -/
def cmd_add (reg : Registry) (a : AddArgs) (fs : FsFacts) (now : String) :
    Except String Registry :=
  if ¬ a.allow_missing ∧ ¬ fs.is_vault_root then
    Except.error "Not a vault root"
  else
    let name := if a.name = "" then pathName a.path else a.name
    if aHas reg.vaults name ∧ ¬ a.force then
      Except.error "Vault name already exists"
    else
      match normalize_workdir a.workdir with
      | Except.error e => Except.error e
      | Except.ok workdir =>
          if workdir ≠ "" ∧ ¬ fs.workdir_exists ∧ ¬ a.allow_missing_workdir
          then Except.error "Working dir does not exist"
          else if workdir ≠ "" ∧ fs.workdir_exists ∧ ¬ fs.workdir_is_dir then
            Except.error "Working dir is not a directory"
          else
            let rec0 : VaultRecord :=
              { path := a.path
                workdir := workdir
                source := if a.source = "" then "manual" else a.source
                updated_at := now }
            Except.ok
              { reg with
                  vaults := aSet reg.vaults name rec0
                  active := if a.set_active then name else reg.active }

/-- `cmd_remove` (vault_registry.py lines 268–285). -/
def cmd_remove (reg : Registry) (name : String) : Except String Registry :=
  if ¬ aHas reg.vaults name then Except.error "Unknown vault name"
  else
    Except.ok
      { reg with
          vaults := aErase reg.vaults name
          active := if reg.active = name then "" else reg.active }

/-- `cmd_set_active` (vault_registry.py lines 326–340). -/
def cmd_set_active (reg : Registry) (name : String) :
    Except String Registry :=
  if ¬ aHas reg.vaults name then Except.error "Unknown vault name"
  else Except.ok { reg with active := name }

/-- `cmd_set_workdir` (vault_registry.py lines 343–390). -/
def cmd_set_workdir (reg : Registry) (name_arg workdir_arg : String)
    (allow_missing_workdir : Bool) (fs : FsFacts) (now : String) :
    Except String Registry :=
  let name := if name_arg = "" then reg.active else name_arg
  if name = "" then Except.error "No vault specified and no active vault set"
  else
    match aGet reg.vaults name with
    | Option.none => Except.error "Unknown vault name"
    | Option.some info =>
        if info.path = "" then Except.error "Vault path missing"
        else
          match normalize_workdir workdir_arg with
          | Except.error e => Except.error e
          | Except.ok workdir =>
              if workdir ≠ "" ∧ ¬ fs.workdir_exists ∧
                  ¬ allow_missing_workdir then
                Except.error "Working dir does not exist"
              else if fs.workdir_exists ∧ ¬ fs.workdir_is_dir then
                Except.error "Working dir is not a directory"
              else
                Except.ok
                  { reg with
                      vaults := aSet reg.vaults name
                        { info with workdir := workdir, updated_at := now } }

/-- One iteration of the merge loop of `cmd_discover` (vault_registry.py
lines 406–425): returns the updated mapping and the diagnostic, if one is
printed. -/
def merge_step (force : Bool) (now : String)
    (vaults : List (String × VaultRecord)) (e : DiscEntry) :
    List (String × VaultRecord) × Option String :=
  if aHas vaults e.name ∧ ¬ force then
    let existing_path := (aGet vaults e.name).map VaultRecord.path
    (vaults,
      if existing_path ≠ Option.some e.path then
        Option.some ("Skip " ++ e.name ++ "; already registered")
      else Option.none)
  else
    let existing_workdir :=
      match aGet vaults e.name with
      | Option.some r => r.workdir
      | Option.none => ""
    (aSet vaults e.name
      { path := e.path
        workdir := existing_workdir
        source := e.source
        updated_at := now }, Option.none)

/-- The whole merge loop over the discovered entries. -/
def merge_vaults (force : Bool) (now : String) (found : List DiscEntry)
    (vaults : List (String × VaultRecord)) : List (String × VaultRecord) :=
  match found with
  | [] => vaults
  | e :: rest => merge_vaults force now rest (merge_step force now vaults e).1

/-- The registry effect of `cmd_discover --merge` (vault_registry.py lines
405–429): only the `vaults` mapping is rewritten. -/
def cmd_merge (reg : Registry) (force : Bool) (now : String)
    (found : List DiscEntry) : Registry :=
  { reg with vaults := merge_vaults force now found reg.vaults }

/-! ## Specification-side definitions

Definitions below are stated from the specification's vocabulary; the
claim theorems relate them to the embedded source functions above. -/

/-- "The input contains a `..` path segment at any position": after
whitespace-stripping and backslash conversion (the separator handling the
normalizer applies), one of the `/`-separated fields is `..`. -/
def hasDotDotSegment (s : String) : Bool :=
  (slashFields (replaceBackslashes (pyStrip s))).any (fun part => part = "..")

/-- The structural invariant of §3: a non-empty `active` references a key
of `vaults`. -/
def registryInvariant (reg : Registry) : Prop :=
  reg.active ≠ "" → aHas reg.vaults reg.active = true

/-- The discovered entries contributed by one candidate file, in source
order, with resolved paths and the originating file as `source`. -/
def file_entries (home : String) (f : String × FileState) : List DiscEntry :=
  match f.2 with
  | FileState.doc d =>
      (extract_vault_entries d).map
        (fun e => ⟨e.1, pathExpandUser home e.2, f.1⟩)
  | _ => []

/-- The full candidate stream: every extracted entry of every parseable
file, earlier files first, before de-duplication. -/
def discovered_stream (home : String) (files : List (String × FileState)) :
    List DiscEntry :=
  (files.map (file_entries home)).flatten

/-- First-occurrence-wins de-duplication by path, stated the canonical
way: keep the head and delete every later entry with the same path. -/
def keepFirstByPath : List DiscEntry → List DiscEntry
  | [] => []
  | x :: xs =>
      x :: keepFirstByPath (xs.filter (fun y => y.path ≠ x.path))
termination_by l => l.length
decreasing_by
  simp only [List.length_cons]
  exact Nat.lt_succ_of_le (List.length_filter_le _ _)

/-- De-duplication against an initial `seen` set (proof intermediary
between the source loop and `keepFirstByPath`). -/
def dropSeenByPath (seen : List String) : List DiscEntry → List DiscEntry
  | [] => []
  | x :: xs =>
      if x.path ∈ seen then dropSeenByPath seen xs
      else x :: dropSeenByPath (x.path :: seen) xs

/-- The `seen` set after scanning a list of entries. -/
def seenAfter (seen : List String) : List DiscEntry → List String
  | [] => seen
  | x :: xs =>
      if x.path ∈ seen then seenAfter seen xs
      else seenAfter (x.path :: seen) xs

/-- The discovery document of the §8 scenario:
`{"vaults":{"Notes":{"path":"/home/u/notes"}}}`. -/
def c3_discovery_doc : PyVal :=
  PyVal.dict
    [("vaults",
      PyVal.dict [("Notes", PyVal.dict [("path", PyVal.str "/home/u/notes")])])]

/-! ## General lemmas about the dictionary model -/

theorem aGet_aSet_self {α : Type u} (l : List (String × α)) (k : String)
    (v : α) : aGet (aSet l k v) k = Option.some v := by
  induction l with
  | nil => simp [aSet, aGet]
  | cons kv rest ih =>
      obtain ⟨k0, v0⟩ := kv
      by_cases h : k0 = k <;> simp [aSet, aGet, h, ih]

theorem aGet_aSet_ne {α : Type u} (l : List (String × α)) (k k' : String)
    (v : α) (h : k' ≠ k) : aGet (aSet l k v) k' = aGet l k' := by
  have h' : ¬ k = k' := fun hk => h hk.symm
  induction l with
  | nil => simp [aSet, aGet, h']
  | cons kv rest ih =>
      obtain ⟨k0, v0⟩ := kv
      by_cases h0 : k0 = k
      · subst h0
        simp [aSet, aGet, h']
      · by_cases h1 : k0 = k' <;> simp [aSet, aGet, h, h0, h1, ih]

theorem aHas_aSet_self {α : Type u} (l : List (String × α)) (k : String)
    (v : α) : aHas (aSet l k v) k = true := by
  simp [aHas, aGet_aSet_self]

theorem aHas_aSet_mono {α : Type u} (l : List (String × α)) (k k' : String)
    (v : α) (h : aHas l k' = true) : aHas (aSet l k v) k' = true := by
  by_cases hk : k' = k
  · subst hk; exact aHas_aSet_self l k' v
  · simpa [aHas, aGet_aSet_ne l k k' v hk] using h

theorem aGet_aErase_ne {α : Type u} (l : List (String × α)) (k k' : String)
    (h : k' ≠ k) : aGet (aErase l k) k' = aGet l k' := by
  induction l with
  | nil => simp [aErase, aGet]
  | cons kv rest ih =>
      obtain ⟨k0, v0⟩ := kv
      by_cases h0 : k0 = k
      · subst h0
        have h1 : ¬ k0 = k' := fun hk => h hk.symm
        simpa [aErase, List.filter_cons, aGet, h1] using ih
      · by_cases h1 : k0 = k'
        · subst h1; simp [aErase, List.filter_cons, aGet, h0]
        · simpa [aErase, List.filter_cons, aGet, h0, h1] using ih

theorem aHas_aErase_ne {α : Type u} (l : List (String × α)) (k k' : String)
    (h : k' ≠ k) : aHas (aErase l k) k' = aHas l k' := by
  simp [aHas, aGet_aErase_ne l k k' h]

theorem aGet_append {α : Type u} (l1 l2 : List (String × α)) (k : String) :
    aGet (l1 ++ l2) k =
      match aGet l1 k with
      | Option.some v => Option.some v
      | Option.none => aGet l2 k := by
  induction l1 with
  | nil => simp [aGet]
  | cons kv rest ih =>
      obtain ⟨k0, v0⟩ := kv
      by_cases h0 : k0 = k <;> simp [aGet, h0, ih]

theorem aGet_aSetDefault_self {α : Type u} (l : List (String × α))
    (k : String) (v : α) : (aGet (aSetDefault l k v) k).isSome = true := by
  unfold aSetDefault
  by_cases h : aHas l k = true
  · have h2 : (aGet l k).isSome = true := by simpa [aHas] using h
    simp [aHas, h2]
  · have hnone : aGet l k = Option.none := by
      cases hg : aGet l k with
      | none => rfl
      | some w => exact absurd (by simp [aHas, hg]) h
    simp [h, aGet_append, hnone, aGet]

theorem aHas_aSetDefault_self {α : Type u} (l : List (String × α))
    (k : String) (v : α) : aHas (aSetDefault l k v) k = true := by
  simpa [aHas] using aGet_aSetDefault_self l k v

theorem aGet_aSetDefault_ne {α : Type u} (l : List (String × α))
    (k k' : String) (v : α) (h : k' ≠ k) :
    aGet (aSetDefault l k v) k' = aGet l k' := by
  unfold aSetDefault
  by_cases hk : aHas l k = true
  · simp [hk]
  · have h' : ¬ k = k' := fun hkk => h hkk.symm
    cases hg : aGet l k' with
    | none => simp [hk, aGet_append, hg, aGet, h']
    | some w => simp [hk, aGet_append, hg]

theorem aHas_aSetDefault_mono {α : Type u} (l : List (String × α))
    (k k' : String) (v : α) (h : aHas l k' = true) :
    aHas (aSetDefault l k v) k' = true := by
  by_cases hk : k' = k
  · subst hk; exact aHas_aSetDefault_self l k' v
  · simpa [aHas, aGet_aSetDefault_ne l k k' v hk] using h

/-! ## Supporting lemmas about output normalization -/

theorem safe_parse_json_isSome (text : String) :
    (safe_parse_json text).isSome =
      (is_json_text text && (jsonLoads text).isSome) := by
  unfold safe_parse_json
  by_cases h : is_json_text text = true <;> simp [h]

/-! ## Claim theorems -/

/-- **C1** (code bug).  The claim — and §8 of the specification — demand
that every command vector with primary verb `delete` and no `permanent`
flag is refused by the gate regardless of the vault argument.  The code
violates this: `run_obsidian` prepends the synthesized `vault=<name>`
token *before* classification, and `_is_destructive` reads the primary
verb from `command[0]`, so with a non-empty vault the classifier sees
`vault=<name>`, returns no reason, and the subprocess is executed.  With
an empty vault the refusal fires as specified.  This theorem evaluates
the embedded gate at the failing input `command=["delete"]`,
`vault="work"`, `force_delete=False` (resolvable binary) and at the
neighbouring compliant input with the empty vault. -/
theorem delete_gate_bypassed_by_vault_injection :
    run_obsidian_gate ["delete"] "work" false true =
      GateOutcome.exec ["vault=work", "delete"] "work" ∧
    run_obsidian_gate ["delete"] "" false true =
      GateOutcome.refused "delete" ["delete"] "" ∧
    run_obsidian_gate ["delete"] "" true true =
      GateOutcome.exec ["delete"] "" := by
  refine ⟨?_, ?_, ?_⟩ <;> rfl

/-- **C2, counterexample.**  The claim states that `parsed` is populated
iff stdout *trimmed of leading whitespace* begins with `{` or `[` and
decodes as valid JSON.  For stdout `" []"` the trimmed text begins with
`[` and the whole text decodes as valid JSON, yet `_is_json_text` looks
at the raw first character (a space), so `parsed` stays `None`. -/
theorem parsed_population_ignores_leading_whitespace :
    ¬ (((normalize_output 0 " []" "" true).parsed.isSome = true) ↔
      (is_json_text (pyLStrip " []") = true ∧
        (jsonLoads " []").isSome = true)) := by
  intro h
  have h2 := h.mpr (by constructor <;> rfl)
  simp [normalize_output, safe_parse_json, is_json_text] at h2

/-- **C2, amended.**  `parsed` is populated iff the *raw* stdout begins
with `{` or `[` and decodes as valid JSON; the rest of the envelope —
`ok`, `exit_code`, `stdout`, `stderr`, `raw` — is computed independently
of the parse outcome, and a decode failure raises no error. -/
theorem parsed_population_iff_raw_prefix_and_decode (rc : Int)
    (stdout stderr : String) :
    (normalize_output rc stdout stderr true).parsed.isSome =
      (is_json_text stdout && (jsonLoads stdout).isSome) ∧
    (normalize_output rc stdout stderr true).ok = decide (rc = 0) ∧
    (normalize_output rc stdout stderr true).exit_code = rc ∧
    (normalize_output rc stdout stderr true).stdout = stdout ∧
    (normalize_output rc stdout stderr true).stderr = stderr ∧
    (normalize_output rc stdout stderr true).raw = pyStrip stdout := by
  refine ⟨?_, rfl, rfl, rfl, rfl, rfl⟩
  simp only [normalize_output]
  exact safe_parse_json_isSome stdout

/-- **C3, counterexample.**  On the document
`{"vaults":{"Notes":{"path":"/home/u/notes"}}}` the extractor does not
yield an entry named `Notes`: the mapping key is ignored, and since the
inner object has no `name`/`label` field the name falls back to
`Path(path).name`, i.e. `notes`. -/
theorem extract_c3_doc_has_no_entry_named_Notes :
    ¬ ("Notes", "/home/u/notes") ∈ extract_vault_entries c3_discovery_doc := by
  decide

/-- **C3, amended.**  The extraction routine yields exactly one entry,
whose path is `/home/u/notes` and whose name is `notes` — the last
segment of the path, per the fallback the specification itself describes
in §4.3 (the `vaults` mapping key is never consulted). -/
theorem extract_c3_doc_yields_basename_entry :
    extract_vault_entries c3_discovery_doc = [("notes", "/home/u/notes")] := by
  decide

/-! ## Lemmas about `/`-field splitting and slash-stripping

Stripping separator characters from either end of a string changes only
the empty fields at its ends, so membership of a non-empty field in the
split is invariant.  These lemmas justify relating
`normalize_workdir`'s post-strip split to `hasDotDotSegment`'s pre-strip
split. -/

theorem splitOnChar_ne_nil (sep : Char) (cs : List Char) :
    splitOnChar sep cs ≠ [] := by
  cases cs with
  | nil => simp [splitOnChar]
  | cons c cs =>
      simp only [splitOnChar]
      cases h : splitOnChar sep cs with
      | nil => simp
      | cons g gs => by_cases hc : c = sep <;> simp [hc]

theorem splitOnChar_cons_sep (sep : Char) (cs : List Char) :
    splitOnChar sep (sep :: cs) = [] :: splitOnChar sep cs := by
  simp only [splitOnChar]
  cases h : splitOnChar sep cs with
  | nil => exact absurd h (splitOnChar_ne_nil sep cs)
  | cons g gs => simp

theorem mem_splitOnChar_dropWhile (sep : Char) (cs : List Char)
    (g : List Char) (hg : g ≠ []) :
    (g ∈ splitOnChar sep (cs.dropWhile (fun c => c = sep)) ↔
      g ∈ splitOnChar sep cs) := by
  induction cs with
  | nil => simp
  | cons c cs ih =>
      by_cases hc : c = sep
      · subst hc
        rw [List.dropWhile_cons_of_pos (by simp), ih,
          splitOnChar_cons_sep]
        simp [hg]
      · rw [List.dropWhile_cons_of_neg (by simp [hc])]

theorem splitOnChar_replicate (sep : Char) (k : Nat) :
    splitOnChar sep (List.replicate k sep) =
      List.replicate k [] ++ [[]] := by
  induction k with
  | zero => simp [splitOnChar]
  | succ k ih =>
      rw [List.replicate_succ, splitOnChar_cons_sep, ih,
        List.replicate_succ]
      simp

theorem splitOnChar_append_replicate (sep : Char) (l : List Char) (k : Nat) :
    splitOnChar sep (l ++ List.replicate k sep) =
      splitOnChar sep l ++ List.replicate k [] := by
  induction l with
  | nil =>
      simp only [List.nil_append, splitOnChar_replicate, splitOnChar]
      rw [← List.replicate_succ', List.replicate_succ]
      simp
  | cons c l ih =>
      by_cases hc : c = sep
      · subst hc
        rw [List.cons_append, splitOnChar_cons_sep, splitOnChar_cons_sep, ih,
          List.cons_append]
      · rw [List.cons_append]
        simp only [splitOnChar]
        cases h : splitOnChar sep l with
        | nil => exact absurd h (splitOnChar_ne_nil sep l)
        | cons g0 gs0 =>
            rw [ih, h]
            simp [hc]

theorem strip_decomposition (sep : Char) (m : List Char) :
    ∃ k, m =
      (m.reverse.dropWhile (fun c => c = sep)).reverse ++
        List.replicate k sep := by
  refine ⟨(m.reverse.takeWhile (fun c => (c = sep : Bool))).length, ?_⟩
  conv_lhs => rw [← m.reverse_reverse,
    ← List.takeWhile_append_dropWhile (p := fun c => (c = sep : Bool))
      (l := m.reverse)]
  rw [List.reverse_append]
  congr 1
  rw [List.eq_replicate_iff]
  constructor
  · simp
  · intro b hb
    have hb2 : b ∈ m.reverse.takeWhile (fun c => (c = sep : Bool)) :=
      List.mem_reverse.1 hb
    simpa using List.mem_takeWhile_imp hb2

theorem mem_splitOnChar_strip (sep : Char) (l : List Char) (g : List Char)
    (hg : g ≠ []) :
    (g ∈ splitOnChar sep
        (((l.dropWhile (fun c => c = sep)).reverse.dropWhile
          (fun c => c = sep)).reverse) ↔
      g ∈ splitOnChar sep l) := by
  obtain ⟨k, hk⟩ :=
    strip_decomposition sep (l.dropWhile (fun c => c = sep))
  have h2 : splitOnChar sep (l.dropWhile (fun c => c = sep)) =
      splitOnChar sep
        (((l.dropWhile (fun c => c = sep)).reverse.dropWhile
          (fun c => c = sep)).reverse) ++ List.replicate k [] := by
    conv_lhs => rw [hk]
    exact splitOnChar_append_replicate sep _ k
  rw [← mem_splitOnChar_dropWhile sep l g hg, h2, List.mem_append]
  constructor
  · intro hmem; exact Or.inl hmem
  · rintro (hmem | hmem)
    · exact hmem
    · exact absurd (List.eq_of_mem_replicate hmem) hg

theorem mem_slashFields_iff (s : String) (g : String) :
    g ∈ slashFields s ↔ g.data ∈ splitOnChar '/' s.data := by
  unfold slashFields
  constructor
  · intro h
    obtain ⟨gl, hmem, heq⟩ := List.mem_map.1 h
    cases heq
    exact hmem
  · intro h
    exact List.mem_map.2 ⟨g.data, h, rfl⟩

theorem mem_slashFields_stripSlashes (t : String) (g : String)
    (hg : g ≠ "") :
    (g ∈ slashFields (stripSlashes t) ↔ g ∈ slashFields t) := by
  have hgd : g.data ≠ [] := by
    intro hd
    apply hg
    cases g
    simp_all
  rw [mem_slashFields_iff, mem_slashFields_iff]
  exact mem_splitOnChar_strip '/' t.data g.data hgd

/-- **C7.**  `normalize_workdir` maps each of `""`, `"."`, `"./"` to the
empty string (the vault-root marker), and every input containing a `..`
path segment at any position is rejected with the validation error —
never silently sanitized into a different path. -/
theorem normalize_workdir_roots_and_dotdot_rejection :
    normalize_workdir "" = Except.ok "" ∧
    normalize_workdir "." = Except.ok "" ∧
    normalize_workdir "./" = Except.ok "" ∧
    ∀ s : String, hasDotDotSegment s = true →
      normalize_workdir s = Except.error "workdir must not contain '..'" := by
  refine ⟨rfl, rfl, rfl, ?_⟩
  intro s h
  unfold hasDotDotSegment at h
  have hmem : ".." ∈ slashFields (replaceBackslashes (pyStrip s)) := by
    obtain ⟨part, hpmem, hpeq⟩ := List.any_eq_true.1 h
    have : part = ".." := by simpa using hpeq
    exact this ▸ hpmem
  by_cases h0 : pyStrip s = "" ∨ pyStrip s = "." ∨ pyStrip s = "./"
  · exfalso
    rcases h0 with h0 | h0 | h0 <;> rw [h0] at hmem <;> revert hmem <;> decide
  · have hmem2 : ".." ∈ slashFields (stripSlashes (replaceBackslashes (pyStrip s))) :=
      (mem_slashFields_stripSlashes (replaceBackslashes (pyStrip s)) ".."
        (by decide)).2 hmem
    have hmemf : ".." ∈
        (slashFields (stripSlashes (replaceBackslashes (pyStrip s)))).filter
          (fun p => p ≠ "" ∧ p ≠ ".") :=
      List.mem_filter.2 ⟨hmem2, by decide⟩
    have hne : ((slashFields (stripSlashes (replaceBackslashes
        (pyStrip s)))).filter (fun p => p ≠ "" ∧ p ≠ ".")).isEmpty = false := by
      rw [List.isEmpty_eq_false]
      exact List.ne_nil_of_mem hmemf
    have hany : ((slashFields (stripSlashes (replaceBackslashes
        (pyStrip s)))).filter (fun p => p ≠ "" ∧ p ≠ ".")).any
          (fun part => part = "..") = true :=
      List.any_eq_true.2 ⟨"..", hmemf, by decide⟩
    have hne2 : ¬ (((slashFields (stripSlashes (replaceBackslashes
        (pyStrip s)))).filter (fun p => p ≠ "" ∧ p ≠ ".")).isEmpty = true) := by
      rw [hne]; exact Bool.false_ne_true
    simp only [normalize_workdir]
    rw [if_neg h0, if_neg hne2, if_pos hany]

/-- **C10.**  `normalize_workdir` never rejects an input for being
absolute or for its separator style: backslashes become forward slashes,
surrounding slashes are stripped, empty and `.` segments are dropped
(`"/a\b/"` normalizes to `"a/b"`, `"/notes"` to `"notes"`), and every
input without a `..` segment is accepted. -/
theorem normalize_workdir_accepts_non_dotdot_inputs :
    normalize_workdir "/a\\b/" = Except.ok "a/b" ∧
    normalize_workdir "/notes" = Except.ok "notes" ∧
    ∀ s : String, hasDotDotSegment s = false →
      ∃ w, normalize_workdir s = Except.ok w := by
  refine ⟨rfl, rfl, ?_⟩
  intro s h
  simp only [normalize_workdir]
  split
  · exact ⟨"", rfl⟩
  · split
    · exact ⟨"", rfl⟩
    · split
      · rename_i hany
        exfalso
        obtain ⟨part, hpmem, hpeq⟩ := List.any_eq_true.1 hany
        have hpart : part = ".." := by simpa using hpeq
        subst hpart
        have hmem2 := List.mem_of_mem_filter hpmem
        have hmem3 :=
          (mem_slashFields_stripSlashes (replaceBackslashes (pyStrip s)) ".."
            (by decide)).1 hmem2
        have : hasDotDotSegment s = true := by
          unfold hasDotDotSegment
          exact List.any_eq_true.2 ⟨"..", hmem3, by decide⟩
        simp [this] at h
      · exact ⟨_, rfl⟩

/-- Witness for C7: the concrete input `a/../b` has a `..` segment and is
rejected with the validation error. -/
theorem normalize_workdir_dotdot_witness :
    normalize_workdir "a/../b" = Except.error "workdir must not contain '..'" :=
  normalize_workdir_roots_and_dotdot_rejection.2.2.2 "a/../b" (by decide)

/-- Witness for C10: the concrete input `sub/dir` has no `..` segment and
is accepted. -/
theorem normalize_workdir_accept_witness :
    ∃ w, normalize_workdir "sub/dir" = Except.ok w :=
  normalize_workdir_accepts_non_dotdot_inputs.2.2 "sub/dir" (by decide)

/-! ## Lemmas about the `load_registry` coercions -/

theorem coerceVaultsField_vaults (kvs : List (String × PyVal)) :
    ∃ m, aGet (coerceVaultsField kvs) "vaults" =
      Option.some (PyVal.dict m) := by
  unfold coerceVaultsField
  cases h : aGet kvs "vaults" with
  | none => exact ⟨[], by simp [aGet_aSet_self]⟩
  | some v =>
      cases v with
      | dict m => exact ⟨m, by simp [h]⟩
      | none => exact ⟨[], by simp [aGet_aSet_self]⟩
      | bool b => exact ⟨[], by simp [aGet_aSet_self]⟩
      | int n => exact ⟨[], by simp [aGet_aSet_self]⟩
      | float l => exact ⟨[], by simp [aGet_aSet_self]⟩
      | str a => exact ⟨[], by simp [aGet_aSet_self]⟩
      | list xs => exact ⟨[], by simp [aGet_aSet_self]⟩

theorem coerceVaultsField_aHas_mono (kvs : List (String × PyVal))
    (k : String) (h : aHas kvs k = true) :
    aHas (coerceVaultsField kvs) k = true := by
  unfold coerceVaultsField
  cases hv : aGet kvs "vaults" with
  | none => exact aHas_aSet_mono kvs "vaults" k _ h
  | some v => cases v <;> first
      | exact h
      | exact aHas_aSet_mono kvs "vaults" k _ h

theorem coerceActiveField_active (kvs : List (String × PyVal)) :
    ∃ a, aGet (coerceActiveField kvs) "active" =
      Option.some (PyVal.str a) := by
  unfold coerceActiveField
  cases h : aGet kvs "active" with
  | none => exact ⟨"", by simp [aGet_aSet_self]⟩
  | some v =>
      cases v with
      | str a => exact ⟨a, by simp [h]⟩
      | none => exact ⟨"", by simp [aGet_aSet_self]⟩
      | bool b => exact ⟨"", by simp [aGet_aSet_self]⟩
      | int n => exact ⟨"", by simp [aGet_aSet_self]⟩
      | float l => exact ⟨"", by simp [aGet_aSet_self]⟩
      | dict m => exact ⟨"", by simp [aGet_aSet_self]⟩
      | list xs => exact ⟨"", by simp [aGet_aSet_self]⟩

theorem coerceActiveField_aGet_ne (kvs : List (String × PyVal))
    (k : String) (h : k ≠ "active") :
    aGet (coerceActiveField kvs) k = aGet kvs k := by
  unfold coerceActiveField
  cases hv : aGet kvs "active" with
  | none => exact aGet_aSet_ne kvs "active" k _ h
  | some v => cases v <;> first
      | rfl
      | exact aGet_aSet_ne kvs "active" k _ h

theorem coerceActiveField_aHas_mono (kvs : List (String × PyVal))
    (k : String) (h : aHas kvs k = true) :
    aHas (coerceActiveField kvs) k = true := by
  unfold coerceActiveField
  cases hv : aGet kvs "active" with
  | none => exact aHas_aSet_mono kvs "active" k _ h
  | some v => cases v <;> first
      | exact h
      | exact aHas_aSet_mono kvs "active" k _ h

theorem coerce_registry_doc_well_formed (d : PyVal) :
    isDictVal (coerce_registry_doc d) = true ∧
    (pvGet (coerce_registry_doc d) "schema_version").isSome = true ∧
    (∃ m, pvGet (coerce_registry_doc d) "vaults" =
      Option.some (PyVal.dict m)) ∧
    (∃ a, pvGet (coerce_registry_doc d) "active" =
      Option.some (PyVal.str a)) := by
  cases d with
  | dict kvs =>
      refine ⟨rfl, ?_, ?_, ?_⟩
      · have h1 : aHas (aSetDefault kvs "schema_version" (PyVal.int 1))
            "schema_version" = true :=
          aHas_aSetDefault_self kvs "schema_version" (PyVal.int 1)
        have h2 := aHas_aSetDefault_mono _ "vaults" "schema_version"
          (PyVal.dict []) h1
        have h3 := aHas_aSetDefault_mono _ "active" "schema_version"
          (PyVal.str "") h2
        have h4 := coerceVaultsField_aHas_mono _ "schema_version" h3
        have h5 := coerceActiveField_aHas_mono _ "schema_version" h4
        simpa [coerce_registry_doc, pvGet, aHas] using h5
      · obtain ⟨m, hm⟩ := coerceVaultsField_vaults
          (aSetDefault
            (aSetDefault (aSetDefault kvs "schema_version" (PyVal.int 1))
              "vaults" (PyVal.dict []))
            "active" (PyVal.str ""))
        refine ⟨m, ?_⟩
        simp only [coerce_registry_doc, pvGet]
        rw [coerceActiveField_aGet_ne _ "vaults" (by decide)]
        exact hm
      · obtain ⟨a, ha⟩ := coerceActiveField_active
          (coerceVaultsField
            (aSetDefault
              (aSetDefault (aSetDefault kvs "schema_version" (PyVal.int 1))
                "vaults" (PyVal.dict []))
              "active" (PyVal.str "")))
        exact ⟨a, by simpa [coerce_registry_doc, pvGet] using ha⟩
  | none => exact ⟨rfl, rfl, ⟨[], rfl⟩, ⟨"", rfl⟩⟩
  | bool b => exact ⟨rfl, rfl, ⟨[], rfl⟩, ⟨"", rfl⟩⟩
  | int n => exact ⟨rfl, rfl, ⟨[], rfl⟩, ⟨"", rfl⟩⟩
  | float l => exact ⟨rfl, rfl, ⟨[], rfl⟩, ⟨"", rfl⟩⟩
  | str a => exact ⟨rfl, rfl, ⟨[], rfl⟩, ⟨"", rfl⟩⟩
  | list xs => exact ⟨rfl, rfl, ⟨[], rfl⟩, ⟨"", rfl⟩⟩

/-- **C9.**  Whatever the registry file holds — absent, unreadable,
invalid JSON, a JSON non-object, or an object with missing or
wrongly-typed fields — `load_registry` returns a dict in which
`schema_version` is present, `vaults` is a dict and `active` is a
string; in particular a wrongly-typed `vaults`/`active` field in an
otherwise valid document is coerced to the empty dict / empty string
rather than propagated. -/
theorem load_registry_always_well_formed :
    (∀ file : FileRead,
      isDictVal (load_registry file) = true ∧
      (pvGet (load_registry file) "schema_version").isSome = true ∧
      (∃ m, pvGet (load_registry file) "vaults" =
        Option.some (PyVal.dict m)) ∧
      (∃ a, pvGet (load_registry file) "active" =
        Option.some (PyVal.str a))) ∧
    pvGet (coerce_registry_doc (PyVal.dict
        [("schema_version", PyVal.int 1), ("vaults", PyVal.int 3),
          ("active", PyVal.list [])]))
      "vaults" = Option.some (PyVal.dict []) ∧
    pvGet (coerce_registry_doc (PyVal.dict
        [("schema_version", PyVal.int 1), ("vaults", PyVal.int 3),
          ("active", PyVal.list [])]))
      "active" = Option.some (PyVal.str "") := by
  refine ⟨?_, rfl, rfl⟩
  intro file
  cases file with
  | absent => exact ⟨rfl, rfl, ⟨[], rfl⟩, ⟨"", rfl⟩⟩
  | ioError => exact ⟨rfl, rfl, ⟨[], rfl⟩, ⟨"", rfl⟩⟩
  | content text =>
      simp only [load_registry]
      cases h : jsonLoads text with
      | none => exact ⟨rfl, rfl, ⟨[], rfl⟩, ⟨"", rfl⟩⟩
      | some d => exact coerce_registry_doc_well_formed d

/-! ## Lemmas about the merge loop -/

theorem merge_step_fst_skip (force : Bool) (now : String)
    (vaults : List (String × VaultRecord)) (e : DiscEntry)
    (h : aHas vaults e.name = true ∧ ¬ force = true) :
    (merge_step force now vaults e).1 = vaults := by
  unfold merge_step
  rw [if_pos h]

theorem merge_step_fst_write (force : Bool) (now : String)
    (vaults : List (String × VaultRecord)) (e : DiscEntry)
    (h : ¬ (aHas vaults e.name = true ∧ ¬ force = true)) :
    (merge_step force now vaults e).1 =
      aSet vaults e.name
        { path := e.path
          workdir :=
            match aGet vaults e.name with
            | Option.some r => r.workdir
            | Option.none => ""
          source := e.source
          updated_at := now } := by
  unfold merge_step
  rw [if_neg h]

theorem aHas_merge_step (force : Bool) (now : String)
    (vaults : List (String × VaultRecord)) (e : DiscEntry) (k : String)
    (h : aHas vaults k = true) :
    aHas (merge_step force now vaults e).1 k = true := by
  by_cases hc : (aHas vaults e.name = true ∧ ¬ force = true)
  · rw [merge_step_fst_skip force now vaults e hc]; exact h
  · rw [merge_step_fst_write force now vaults e hc]
    exact aHas_aSet_mono vaults e.name k _ h

theorem aHas_merge_vaults_mono (force : Bool) (now : String)
    (found : List DiscEntry) (vaults : List (String × VaultRecord))
    (k : String) (h : aHas vaults k = true) :
    aHas (merge_vaults force now found vaults) k = true := by
  induction found generalizing vaults with
  | nil => exact h
  | cons e rest ih =>
      exact ih _ (aHas_merge_step force now vaults e k h)

theorem merge_vaults_entry_mem (force : Bool) (now : String)
    (found : List DiscEntry) (vaults : List (String × VaultRecord)) :
    ∀ e ∈ found, aHas (merge_vaults force now found vaults) e.name = true := by
  induction found generalizing vaults with
  | nil => intro e he; cases he
  | cons e0 rest ih =>
      intro e he
      rcases List.mem_cons.1 he with he | he
      · subst he
        have hstep : aHas (merge_step force now vaults e).1 e.name = true := by
          by_cases hc : (aHas vaults e.name = true ∧ ¬ force = true)
          · rw [merge_step_fst_skip force now vaults e hc]; exact hc.1
          · rw [merge_step_fst_write force now vaults e hc]
            exact aHas_aSet_self vaults e.name _
        exact aHas_merge_vaults_mono force now rest _ e.name hstep
      · exact ih _ e he

theorem merge_vaults_noop (now : String) (found : List DiscEntry)
    (vaults : List (String × VaultRecord))
    (h : ∀ e ∈ found, aHas vaults e.name = true) :
    merge_vaults false now found vaults = vaults := by
  induction found with
  | nil => rfl
  | cons e rest ih =>
      have hstep : (merge_step false now vaults e).1 = vaults :=
        merge_step_fst_skip false now vaults e
          ⟨h e (List.mem_cons_self e rest), by simp⟩
      simp only [merge_vaults, hstep]
      exact ih (fun e' he' => h e' (List.mem_cons_of_mem e he'))

/-- **C5.**  With `force` unset, the merge step is idempotent: applying
the same discovered entries a second time changes nothing at all — in
particular the mapping of vault names to paths is unchanged, no entries
are added, and unchanged entries keep their stored values (including
timestamps) untouched by the second run, whatever its clock `t2` reads. -/
theorem discover_merge_idempotent (reg : Registry) (found : List DiscEntry)
    (t1 t2 : String) :
    cmd_merge (cmd_merge reg false t1 found) false t2 found =
      cmd_merge reg false t1 found := by
  unfold cmd_merge
  congr 1
  exact merge_vaults_noop t2 found _
    (fun e he => merge_vaults_entry_mem false t1 found reg.vaults e he)

/-- **C6.**  One merge iteration with `force` unset leaves an
already-registered name entirely unchanged and emits its diagnostic
exactly when the stored path differs from the discovered one; and a
written entry (new name, or any entry under `force`) gets the discovered
`path` and `source` and the fresh timestamp while inheriting the
previously stored `workdir` (empty if the name was absent), all other
records untouched. -/
theorem merge_step_skip_and_write (vaults : List (String × VaultRecord))
    (e : DiscEntry) (now : String) :
    (aHas vaults e.name = true →
      (merge_step false now vaults e).1 = vaults ∧
      ((merge_step false now vaults e).2.isSome = true ↔
        ¬ (aGet vaults e.name).map VaultRecord.path = Option.some e.path)) ∧
    (∀ force : Bool, (aHas vaults e.name = false ∨ force = true) →
      aGet (merge_step force now vaults e).1 e.name =
        Option.some
          { path := e.path
            workdir := (aGet vaults e.name).elim "" VaultRecord.workdir
            source := e.source
            updated_at := now } ∧
      ∀ k, k ≠ e.name →
        aGet (merge_step force now vaults e).1 k = aGet vaults k) := by
  constructor
  · intro h
    have hc : (aHas vaults e.name = true ∧ ¬ (false : Bool) = true) :=
      ⟨h, by simp⟩
    refine ⟨merge_step_fst_skip false now vaults e hc, ?_⟩
    unfold merge_step
    rw [if_pos hc]
    by_cases hp : (aGet vaults e.name).map VaultRecord.path =
        Option.some e.path <;> simp [hp]
  · intro force hf
    have hc : ¬ (aHas vaults e.name = true ∧ ¬ force = true) := by
      intro hcon
      rcases hf with hf | hf
      · rw [hf] at hcon; exact absurd hcon.1 (by simp)
      · exact hcon.2 (by simp [hf])
    rw [merge_step_fst_write force now vaults e hc]
    constructor
    · cases hag : aGet vaults e.name with
      | none => simp [hag, aGet_aSet_self]
      | some r => simp [hag, aGet_aSet_self]
    · intro k hk
      exact aGet_aSet_ne vaults e.name k _ hk

/-- Witness for C6: on a registry holding `a → /p`, re-discovering
`a → /p` is a silent no-op skip, and discovering a new name `b → /q`
writes the discovered path, source and timestamp with an empty workdir. -/
theorem merge_step_skip_and_write_witness :
    (merge_step false "t1" [("a", ⟨"/p", "wd", "manual", "t0"⟩)]
      ⟨"a", "/p", "f"⟩).1 = [("a", ⟨"/p", "wd", "manual", "t0"⟩)] ∧
    aGet (merge_step false "t1" [("a", ⟨"/p", "wd", "manual", "t0"⟩)]
      ⟨"b", "/q", "f"⟩).1 "b" = Option.some ⟨"/q", "", "f", "t1"⟩ :=
  ⟨((merge_step_skip_and_write [("a", ⟨"/p", "wd", "manual", "t0"⟩)]
      ⟨"a", "/p", "f"⟩ "t1").1 (by decide)).1,
    ((merge_step_skip_and_write [("a", ⟨"/p", "wd", "manual", "t0"⟩)]
      ⟨"b", "/q", "f"⟩ "t1").2 false (Or.inl (by decide))).1⟩

/-- **C4.**  From any registry state whose non-empty `active` names a key
of `vaults`, each registry operation — add, remove, set-active,
set-workdir, discover-merge — yields a state in which a non-empty
`active` again names a key of `vaults`; in particular removing the
active vault clears `active` to the empty string.  (Error outcomes leave
the registry unsaved and are not registry states.) -/
theorem registry_ops_preserve_active_invariant (reg : Registry)
    (_hne : reg.active ≠ "") (hmem : aHas reg.vaults reg.active = true) :
    (∀ a fs now reg', cmd_add reg a fs now = Except.ok reg' →
      registryInvariant reg') ∧
    (∀ n reg', cmd_remove reg n = Except.ok reg' →
      registryInvariant reg' ∧ (n = reg.active → reg'.active = "")) ∧
    (∀ n reg', cmd_set_active reg n = Except.ok reg' →
      registryInvariant reg') ∧
    (∀ na wa amw fs now reg',
      cmd_set_workdir reg na wa amw fs now = Except.ok reg' →
      registryInvariant reg') ∧
    (∀ force now found,
      registryInvariant (cmd_merge reg force now found)) := by
  refine ⟨?_, ?_, ?_, ?_, ?_⟩
  · intro a fs now reg' h
    simp only [cmd_add] at h
    by_cases c1 : (¬ a.allow_missing = true ∧ ¬ fs.is_vault_root = true)
    · rw [if_pos c1] at h; cases h
    · rw [if_neg c1] at h
      by_cases c2 : (aHas reg.vaults
          (if a.name = "" then pathName a.path else a.name) = true ∧
          ¬ a.force = true)
      · rw [if_pos c2] at h; cases h
      · rw [if_neg c2] at h
        cases hn : normalize_workdir a.workdir with
        | error e => rw [hn] at h; cases h
        | ok w =>
            rw [hn] at h
            dsimp only at h
            by_cases c3 : (w ≠ "" ∧ ¬ fs.workdir_exists = true ∧
                ¬ a.allow_missing_workdir = true)
            · rw [if_pos c3] at h; cases h
            · rw [if_neg c3] at h
              by_cases c4 : (w ≠ "" ∧ fs.workdir_exists = true ∧
                  ¬ fs.workdir_is_dir = true)
              · rw [if_pos c4] at h; cases h
              · rw [if_neg c4] at h
                cases h
                intro _
                by_cases hsa : a.set_active = true
                · simp only [hsa, if_pos rfl]
                  exact aHas_aSet_self reg.vaults _ _
                · have heq : (if a.set_active = true then
                      (if a.name = "" then pathName a.path else a.name)
                      else reg.active) = reg.active := by simp [hsa]
                  simp only [heq]
                  exact aHas_aSet_mono reg.vaults _ reg.active _ hmem
  · intro n reg' h
    unfold cmd_remove at h
    split at h
    · cases h
    · rename_i hhas
      cases h
      constructor
      · intro hact
        by_cases hr : reg.active = n
        · simp [hr] at hact
        · have heq : (if reg.active = n then "" else reg.active) =
              reg.active := by simp [hr]
          simp only [heq] at hact ⊢
          rw [aHas_aErase_ne reg.vaults n reg.active hr]
          exact hmem
      · intro hn
        simp [hn.symm]
  · intro n reg' h
    unfold cmd_set_active at h
    split at h
    · cases h
    · rename_i hhas
      cases h
      intro _
      simpa using hhas
  · intro na wa amw fs now reg' h
    simp only [cmd_set_workdir] at h
    by_cases c1 : (if na = "" then reg.active else na) = ""
    · rw [if_pos c1] at h; cases h
    · rw [if_neg c1] at h
      cases hag : aGet reg.vaults (if na = "" then reg.active else na) with
      | none => rw [hag] at h; cases h
      | some info =>
          rw [hag] at h
          dsimp only at h
          by_cases c2 : info.path = ""
          · rw [if_pos c2] at h; cases h
          · rw [if_neg c2] at h
            cases hn : normalize_workdir wa with
            | error e => rw [hn] at h; cases h
            | ok w =>
                rw [hn] at h
                dsimp only at h
                by_cases c3 : (w ≠ "" ∧ ¬ fs.workdir_exists = true ∧
                    ¬ amw = true)
                · rw [if_pos c3] at h; cases h
                · rw [if_neg c3] at h
                  by_cases c4 : (fs.workdir_exists = true ∧
                      ¬ fs.workdir_is_dir = true)
                  · rw [if_pos c4] at h; cases h
                  · rw [if_neg c4] at h
                    cases h
                    intro _
                    exact aHas_aSet_mono reg.vaults _ reg.active _ hmem
  · intro force now found
    intro _
    exact aHas_merge_vaults_mono force now found reg.vaults reg.active hmem

/-- Witness for C4: on the one-vault registry with `a` active, removing
`a` succeeds and clears `active`, and the resulting state satisfies the
invariant. -/
theorem registry_ops_invariant_witness :
    registryInvariant (⟨1, [], ""⟩ : Registry) ∧
    (⟨1, [], ""⟩ : Registry).active = "" :=
  have h :=
    (registry_ops_preserve_active_invariant
      ⟨1, [("a", ⟨"/p", "", "manual", "t0"⟩)], "a"⟩ (by decide)
      (by decide)).2.1 "a" ⟨1, [], ""⟩ (by rfl)
  ⟨h.1, h.2 rfl⟩

/-! ## Lemmas about discovery de-duplication -/

theorem discover_loop_eq (home src : String) (es : List (String × String))
    (seen : List String) (acc : List DiscEntry) :
    discover_loop home src es seen acc =
      (acc ++ dropSeenByPath seen (es.map (fun e =>
          (⟨e.1, pathExpandUser home e.2, src⟩ : DiscEntry))),
        seenAfter seen (es.map (fun e =>
          (⟨e.1, pathExpandUser home e.2, src⟩ : DiscEntry)))) := by
  induction es generalizing seen acc with
  | nil => simp [discover_loop, dropSeenByPath, seenAfter]
  | cons e rest ih =>
      obtain ⟨n, p⟩ := e
      simp only [discover_loop, List.map_cons]
      by_cases hm : pathExpandUser home p ∈ seen
      · rw [if_pos hm, ih]
        simp [dropSeenByPath, seenAfter, hm]
      · rw [if_neg hm, ih]
        simp [dropSeenByPath, seenAfter, hm, List.append_assoc]

theorem dropSeen_seenAfter_append (l1 l2 : List DiscEntry)
    (seen : List String) :
    dropSeenByPath seen (l1 ++ l2) =
      dropSeenByPath seen l1 ++ dropSeenByPath (seenAfter seen l1) l2 ∧
    seenAfter seen (l1 ++ l2) = seenAfter (seenAfter seen l1) l2 := by
  induction l1 generalizing seen with
  | nil => simp [dropSeenByPath, seenAfter]
  | cons x xs ih =>
      by_cases hm : x.path ∈ seen <;>
        simp [dropSeenByPath, seenAfter, hm, ih]

theorem discover_files_eq (home : String) (files : List (String × FileState))
    (seen : List String) (acc : List DiscEntry) :
    discover_files home files seen acc =
      acc ++ dropSeenByPath seen ((files.map (file_entries home)).flatten) := by
  induction files generalizing seen acc with
  | nil => simp [discover_files, dropSeenByPath]
  | cons f rest ih =>
      obtain ⟨fname, st⟩ := f
      cases st with
      | doc d =>
          simp only [discover_files, discover_loop_eq, ih, List.map_cons,
            List.flatten_cons]
          rw [(dropSeen_seenAfter_append (file_entries home (fname,
            FileState.doc d)) ((rest.map (file_entries home)).flatten)
            seen).1]
          simp [file_entries, List.append_assoc]
      | absent =>
          simp [discover_files, ih, file_entries, dropSeenByPath]
      | unreadable =>
          simp [discover_files, ih, file_entries, dropSeenByPath]
      | badJson =>
          simp [discover_files, ih, file_entries, dropSeenByPath]

theorem dropSeen_eq_keepFirst_aux :
    ∀ (n : Nat) (l : List DiscEntry) (seen : List String),
      l.length ≤ n →
      dropSeenByPath seen l =
        keepFirstByPath (l.filter (fun y => decide (y.path ∉ seen))) := by
  intro n
  induction n with
  | zero =>
      intro l seen hl
      rw [List.length_eq_zero.1 (Nat.le_zero.1 hl)]
      simp [dropSeenByPath, keepFirstByPath]
  | succ n ih =>
      intro l seen hl
      cases l with
      | nil => simp [dropSeenByPath, keepFirstByPath]
      | cons x xs =>
          by_cases hm : x.path ∈ seen
          · rw [List.filter_cons_of_neg (by simpa using hm)]
            simp only [dropSeenByPath, if_pos hm]
            exact ih xs seen (Nat.le_of_succ_le_succ hl)
          · rw [List.filter_cons_of_pos (by simpa using hm)]
            simp only [dropSeenByPath, if_neg hm, keepFirstByPath]
            congr 1
            rw [List.filter_filter]
            have hcong : ∀ y : DiscEntry,
                (decide (y.path ≠ x.path) && decide (y.path ∉ seen)) =
                  decide (y.path ∉ x.path :: seen) := by
              intro y
              by_cases h1 : y.path = x.path <;>
                by_cases h2 : y.path ∈ seen <;>
                simp [h1, h2, List.mem_cons]
            rw [show (fun y : DiscEntry =>
                decide (y.path ≠ x.path) && decide (y.path ∉ seen)) =
                (fun y : DiscEntry => decide (y.path ∉ x.path :: seen)) from
              funext hcong]
            exact ih xs (x.path :: seen) (Nat.le_of_succ_le_succ hl)

theorem mem_keepFirstByPath_aux :
    ∀ (n : Nat) (l : List DiscEntry) (x : DiscEntry),
      l.length ≤ n → x ∈ keepFirstByPath l → x ∈ l := by
  intro n
  induction n with
  | zero =>
      intro l x hl hx
      rw [List.length_eq_zero.1 (Nat.le_zero.1 hl)] at hx ⊢
      simp [keepFirstByPath] at hx
  | succ n ih =>
      intro l x hl hx
      cases l with
      | nil => simp [keepFirstByPath] at hx
      | cons y ys =>
          simp only [keepFirstByPath, List.mem_cons] at hx
          rcases hx with hx | hx
          · exact hx ▸ List.mem_cons_self y ys
          · have hmem := ih (ys.filter (fun z => z.path ≠ y.path)) x
              (Nat.le_trans (List.length_filter_le _ ys)
                (Nat.le_of_succ_le_succ hl)) hx
            exact List.mem_cons_of_mem y (List.mem_of_mem_filter hmem)

/-- **C8.**  `discover_vaults` returns exactly the first-occurrence-wins
de-duplication (by resolved path) of the stream of entries extracted
from the candidate files in order — so whenever two extracted entries
resolve to the same path, only the earliest survives — and every
returned entry carries as `source` the candidate file it came from, with
its path resolved by `expanduser`. -/
theorem discover_dedup_first_wins_and_source (home : String)
    (files : List (String × FileState)) :
    discover_vaults home files =
      keepFirstByPath (discovered_stream home files) ∧
    ∀ e, e ∈ discover_vaults home files →
      ∃ fname d, (fname, FileState.doc d) ∈ files ∧
        ∃ nm p, (nm, p) ∈ extract_vault_entries d ∧
          e = ⟨nm, pathExpandUser home p, fname⟩ := by
  have h1 : discover_vaults home files =
      keepFirstByPath (discovered_stream home files) := by
    unfold discover_vaults
    rw [discover_files_eq]
    simp only [List.nil_append]
    rw [dropSeen_eq_keepFirst_aux
      ((files.map (file_entries home)).flatten).length _ _ (Nat.le_refl _)]
    unfold discovered_stream
    congr 1
    rw [List.filter_eq_self]
    intro a _
    simp
  refine ⟨h1, ?_⟩
  intro e he
  rw [h1] at he
  have he2 : e ∈ discovered_stream home files :=
    mem_keepFirstByPath_aux (discovered_stream home files).length _ e
      (Nat.le_refl _) he
  unfold discovered_stream at he2
  obtain ⟨l, hl, hel⟩ := List.mem_flatten.1 he2
  obtain ⟨f, hf, rfl⟩ := List.mem_map.1 hl
  obtain ⟨fname, st⟩ := f
  cases st with
  | doc d =>
      have hel2 : ∃ a b, (a, b) ∈ extract_vault_entries d ∧
          ({ name := a, path := pathExpandUser home b,
             source := fname } : DiscEntry) = e := by
        simpa [file_entries] using hel
      obtain ⟨a, b, hab, he3⟩ := hel2
      exact ⟨fname, d, hf, a, b, hab, he3.symm⟩
  | absent => simp [file_entries] at hel
  | unreadable => simp [file_entries] at hel
  | badJson => simp [file_entries] at hel

/-- Witness for C8: two files, the second containing a duplicate of the
first file's path plus a fresh one; the fresh entry is returned and is
traced to its originating file. -/
theorem discover_dedup_witness :
    ∃ fname d,
      (fname, FileState.doc d) ∈
        [("f1", FileState.doc (PyVal.dict [("vaults", PyVal.list
          [PyVal.dict [("name", PyVal.str "A"), ("path", PyVal.str "/a")]])])),
         ("f2", FileState.doc (PyVal.dict [("vaults", PyVal.list
          [PyVal.dict [("name", PyVal.str "B"), ("path", PyVal.str "/a")],
           PyVal.dict [("name", PyVal.str "C"),
             ("path", PyVal.str "/c")]])]))] ∧
      ∃ nm p, (nm, p) ∈ extract_vault_entries d ∧
        (⟨"C", "/c", "f2"⟩ : DiscEntry) = ⟨nm, pathExpandUser "/h" p, fname⟩ :=
  (discover_dedup_first_wins_and_source "/h"
    [("f1", FileState.doc (PyVal.dict [("vaults", PyVal.list
      [PyVal.dict [("name", PyVal.str "A"), ("path", PyVal.str "/a")]])])),
     ("f2", FileState.doc (PyVal.dict [("vaults", PyVal.list
      [PyVal.dict [("name", PyVal.str "B"), ("path", PyVal.str "/a")],
       PyVal.dict [("name", PyVal.str "C"),
         ("path", PyVal.str "/c")]])]))]).2
    ⟨"C", "/c", "f2"⟩ (by decide)
